import Mathlib

/-!
# dumbproxy: transport utilities (`utils.go`)

A shallow embedding of the helpers in `utils.go` (streaming body copy, header
sanitising, connection hijacking, bidirectional relay, TLS server
configuration), followed by theorems about them.

Conventions of the embedding:

* a Go `error` is an `Option GoError`, `none` standing for `nil`;
* a pointer result that may be `nil` is an `Option`;
* the outcome of a call into the environment (a `Read`, a `Write`, loading a
  key pair, ...) is an input of the model, so that every theorem quantifies
  over every behaviour of the environment;
* loops that are not bounded by their input carry a fuel argument and return
  `none` when it runs out.
-/

namespace DumbProxy

/-! ## Basic types -/

/-- A Go `error` value that is not `nil`. -/
abbrev GoError := String

/-- One byte of a Go `[]byte`. -/
abbrev Byte := Nat

/-! ## Streaming body copy (`flush`, `copyBody`) -/

/-- The chunk size `COPY_BUF = 128 * 1024`. -/
def COPY_BUF : Nat := 128 * 1024

/-- What `body.Read(buf)` returned: `data` is `buf[:bread]`, the bytes the call
stored in the buffer (so `bread = data.length`), and `err` is `read_err`. -/
structure ReadResult where
  data : List Byte
  err : Option GoError
  deriving DecidableEq, Repr

/-- An `io.Reader`: the result of its `n`-th `Read` call (counting from 0) on a
buffer of the given length. -/
abbrev Reader := Nat → Nat → ReadResult

/-- An `io.Writer`: `Write n p` is the error returned by its `n`-th `Write`
call (counting from 0) when given the bytes `p`; `isFlusher` tells whether the
dynamic type also implements `http.Flusher`. -/
structure Writer where
  Write : Nat → List Byte → Option GoError
  isFlusher : Bool

/-- The calls `copyBody` makes, in the order it makes them. -/
inductive Call where
  /-- The call `body.Read(buf)` and its result. -/
  | Read (res : ReadResult)
  /-- The call `wr.Write(p)` and the error it returned. -/
  | Write (p : List Byte) (err : Option GoError)
  /-- The call `flush(wr)` and the boolean it returned, which is `true`
  exactly when `Flush()` was invoked on the writer. -/
  | flush (flushed : Bool)
  deriving DecidableEq, Repr

/-- Embedding of `flush`: the type assertion to `http.Flusher` fails and the function
returns `false`, or it succeeds, `Flush()` is called and the function returns `true`. -/
def flush (wr : Writer) : Bool :=
  if !wr.isFlusher then false else true

/-- The loop of `copyBody`; `nr` and `nw` count the `Read` and `Write` calls
made so far. Returns the calls made from here on, or `none` if the fuel runs
out before the loop breaks. -/
def copyBodyLoop (wr : Writer) (body : Reader) : Nat → Nat → Nat → Option (List Call)
  | 0, _, _ => none
  | fuel + 1, nr, nw =>
    let res := body nr COPY_BUF
    let bread := res.data.length
    let read_err := res.err
    let write_err : Option GoError := if bread > 0 then wr.Write nw res.data else none
    let calls := Call.Read res ::
      (if bread > 0 then [Call.Write res.data write_err, Call.flush (flush wr)] else [])
    let nw' := if bread > 0 then nw + 1 else nw
    if read_err ≠ none ∨ write_err ≠ none then some calls
    else (copyBodyLoop wr body fuel (nr + 1) nw').map (calls ++ ·)

/-- Embedding of `copyBody(wr, body)`: the calls it makes, in order. -/
def copyBody (fuel : Nat) (wr : Writer) (body : Reader) : Option (List Call) :=
  copyBodyLoop wr body fuel 0 0

/-- The results of the `Read` calls of a trace, in order. -/
def readsOf : List Call → List ReadResult
  | [] => []
  | Call.Read r :: t => r :: readsOf t
  | _ :: t => readsOf t

/-- The arguments of the `Write` calls of a trace, in order. -/
def writesOf : List Call → List (List Byte)
  | [] => []
  | Call.Write p _ :: t => p :: writesOf t
  | _ :: t => writesOf t

/-- The results of the `flush` calls of a trace, in order. -/
def flushesOf : List Call → List Bool
  | [] => []
  | Call.flush b :: t => b :: flushesOf t
  | _ :: t => flushesOf t

/-- Flush discipline of a trace: every `Write` is immediately followed by one
`flush`, and no `flush` occurs anywhere else. -/
def flushDiscipline : List Call → Bool
  | [] => true
  | Call.Write _ _ :: Call.flush _ :: t => flushDiscipline t
  | Call.Write _ _ :: _ => false
  | Call.flush _ :: _ => false
  | Call.Read _ :: t => flushDiscipline t

/-- A reader that plays a finite script of results, and reports `EOF` with no
bytes once the script is exhausted. -/
def scriptReader (script : List ReadResult) : Reader :=
  fun n _ => script.getD n ⟨[], some "EOF"⟩

/-- Number of `Write` calls made before iteration `n` of the loop, when no
earlier iteration broke out of it: one per non-empty read. -/
def writesBefore (body : Reader) : Nat → Nat
  | 0 => 0
  | n + 1 => writesBefore body n + (if (body n COPY_BUF).data.length > 0 then 1 else 0)

/-- Iteration `n` of the loop sees an error: its `Read` returned a non-nil
error, or it read at least one byte and its `Write` returned a non-nil error. -/
def iterFails (wr : Writer) (body : Reader) (n : Nat) : Bool :=
  (body n COPY_BUF).err.isSome ||
    (decide ((body n COPY_BUF).data.length > 0) &&
      (wr.Write (writesBefore body n) (body n COPY_BUF).data).isSome)

/-- The calls of iteration `n` of the loop. -/
def iterCalls (wr : Writer) (body : Reader) (n : Nat) : List Call :=
  let res := body n COPY_BUF
  Call.Read res ::
    (if res.data.length > 0 then
      [Call.Write res.data (wr.Write (writesBefore body n) res.data), Call.flush (flush wr)]
    else [])

/-! ## Header maps (`hopHeaders`, `copyHeader`, `delHopHeaders`)

The methods `Add` and `Del` of `http.Header` belong to Go's standard library;
they are embedded here as the library defines them, through
`textproto.CanonicalMIMEHeaderKey`. A header name is a `String`, read
character by character. The bytes of a character outside ASCII are all above
127 and none of them is a valid header field byte, which is how such a
character is classified here, so that a name is canonicalised or left alone
exactly as its bytes are. -/

/-- Whether a byte is an upper-case ASCII letter, `'A' <= c && c <= 'Z'`. -/
def isUpperAZ (c : Char) : Bool := decide (65 ≤ c.toNat) && decide (c.toNat ≤ 90)

/-- Whether a byte is a lower-case ASCII letter, `'a' <= c && c <= 'z'`. -/
def isLowerAZ (c : Char) : Bool := decide (97 ≤ c.toNat) && decide (c.toNat ≤ 122)

/-- Go's `validHeaderFieldByte` (package `net/textproto`): the bytes allowed in
a header field name, which are the ASCII letters and digits and the
punctuation of an RFC 7230 token. -/
def validHeaderFieldByte (c : Char) : Bool :=
  isUpperAZ c || isLowerAZ c || (decide (48 ≤ c.toNat) && decide (c.toNat ≤ 57)) ||
    [33, 35, 36, 37, 38, 39, 42, 43, 45, 46, 94, 95, 96, 124, 126].contains c.toNat

/-- One step of the casing loop of Go's `canonicalMIMEHeaderKey`: with `upper`
set a lower-case letter is made upper case (`c -= toLower`), with `upper`
unset an upper-case letter is made lower case (`c += toLower`), where
`toLower = 'a' - 'A' = 32`. -/
def canonicalByte (upper : Bool) (c : Char) : Char :=
  if upper && isLowerAZ c then Char.ofNat (c.toNat - 32)
  else if !upper && isUpperAZ c then Char.ofNat (c.toNat + 32)
  else c

/-- The casing loop of Go's `canonicalMIMEHeaderKey`: `upper` is set at the
start and after each `-` (byte 45). -/
def canonicalLoop : Bool → List Char → List Char
  | _, [] => []
  | upper, c :: cs =>
    let c1 := canonicalByte upper c
    c1 :: canonicalLoop (c1.toNat == 45) cs

/-- Go's `textproto.CanonicalMIMEHeaderKey`, which `http.Header.Add` and
`http.Header.Del` apply to their key: a key holding a byte that is not a valid
header field byte is returned unchanged, any other key is put in canonical
case. -/
def CanonicalMIMEHeaderKey (s : String) : String :=
  if s.data.all validHeaderFieldByte then String.mk (canonicalLoop true s.data) else s

/-- ASCII lower-casing of one byte. -/
def lowerByte (c : Char) : Char :=
  if isUpperAZ c then Char.ofNat (c.toNat + 32) else c

/-- Two header names are the same up to letter case. -/
def equalFold (a b : String) : Bool :=
  a.data.map lowerByte == b.data.map lowerByte

/-- The table `hopHeaders`. -/
def hopHeaders : List String :=
  [ "Connection",
    "Keep-Alive",
    "Proxy-Authenticate",
    "Proxy-Connection",
    "Proxy-Authorization",
    "Te", -- canonicalized version of "TE"
    "Trailers",
    "Transfer-Encoding",
    "Upgrade" ]

/-- A header name is one of the nine hop-by-hop names, in any letter case. -/
def isHopName (k : String) : Bool :=
  hopHeaders.any (fun h => equalFold k h)

/-- An `http.Header` value, a `map[string][]string`, as an association list.
The order of the list stands for the order in which `range` visits the map. -/
abbrev Header := List (String × List String)

/-- The keys of a header map. -/
def Header.keys (h : Header) : List String := h.map Prod.fst

/-- A header map holds each key once. -/
def Header.WF (h : Header) : Prop := h.keys.Nodup

/-- The map access `h[k]` with presence, `v, ok := h[k]`. -/
def Header.get? (h : Header) (k : String) : Option (List String) :=
  (h.find? (fun e => e.1 == k)).map Prod.snd

/-- The map access `h[k]`: the value sequence at `k`, empty (`nil`) for an absent key. -/
def Header.values (h : Header) (k : String) : List String :=
  (h.get? k).getD []

/-- The builtin `delete(h, k)`. -/
def Header.delete (h : Header) (k : String) : Header :=
  h.filter (fun e => e.1 != k)

/-- The map assignment `h[k] = vs`. -/
def Header.set (h : Header) (k : String) (vs : List String) : Header :=
  (k, vs) :: h.delete k

/-- Go's `http.Header.Add`: `key = CanonicalMIMEHeaderKey(key); h[key] = append(h[key], value)`. -/
def Header.Add (h : Header) (key value : String) : Header :=
  let key := CanonicalMIMEHeaderKey key
  h.set key (h.values key ++ [value])

/-- Go's `http.Header.Del`: `delete(h, CanonicalMIMEHeaderKey(key))`. -/
def Header.Del (h : Header) (key : String) : Header :=
  h.delete (CanonicalMIMEHeaderKey key)

/-- A reference to a header map: an `http.Header` is a reference to a map that
the callee mutates in place. -/
abbrev Ref := Nat

/-- The header maps in memory, by reference. -/
abbrev Store := Ref → Header

/-- The call `h.Add(key, value)` on the map that `r` refers to. -/
def Store.Add (σ : Store) (r : Ref) (key value : String) : Store :=
  Function.update σ r ((σ r).Add key value)

/-- The call `h.Del(key)` on the map that `r` refers to. -/
def Store.Del (σ : Store) (r : Ref) (key : String) : Store :=
  Function.update σ r ((σ r).Del key)

/-- Embedding of `copyHeader(dst, src)`: for each entry `k, vv` of `src` and each `v` of
`vv`, in order, `dst.Add(k, v)`. The entries visited are those of `src` at the
call, which is what `range` does when `dst` and `src` are distinct maps. -/
def copyHeader (dst src : Ref) (σ : Store) : Store :=
  (σ src).foldl (fun σ1 e => e.2.foldl (fun σ2 v => σ2.Add dst e.1 v) σ1) σ

/-- Embedding of `delHopHeaders(header)`: `header.Del(h)` for each `h` of `hopHeaders`. -/
def delHopHeaders (header : Ref) (σ : Store) : Store :=
  hopHeaders.foldl (fun σ1 h => σ1.Del header h) σ

/-- The effect of `copyHeader` on the destination map alone. -/
def Header.addAll (dst src : Header) : Header :=
  src.foldl (fun h e => e.2.foldl (fun h1 v => h1.Add e.1 v) h) dst

instance Header.decidableWF (h : Header) : Decidable h.WF := by
  unfold Header.WF
  infer_instance

/-- A store for the examples: map 0 is `dst`, every other map is `src`. -/
def exampleStore (dst src : Header) : Store :=
  fun r => if r = 0 then dst else src

/-! ## Connection takeover (`hijack`) -/

/-- A `time.Time`; `0` is the zero value, which as a deadline means "no deadline". -/
abbrev Time := Nat

/-- A method call that a connection received. -/
inductive ConnCall where
  /-- The call `SetDeadline(t)` and the error it returned. -/
  | SetDeadline (t : Time) (err : Option GoError)
  /-- The call `Close()`. -/
  | Close
  deriving DecidableEq, Repr

/-- The state of a `net.Conn`: whether it is closed, its deadline, and the calls
it has received so far. -/
structure Conn where
  closed : Bool
  deadline : Time
  log : List ConnCall
  deriving DecidableEq, Repr

/-- The method `conn.SetDeadline(t)`, returning `err`: the deadline is set when the
call succeeds. -/
def Conn.SetDeadline (c : Conn) (t : Time) (err : Option GoError) : Conn :=
  { closed := c.closed
    deadline := if err = none then t else c.deadline
    log := c.log ++ [ConnCall.SetDeadline t err] }

/-- The method `conn.Close()`. -/
def Conn.Close (c : Conn) : Conn :=
  { closed := true, deadline := c.deadline, log := c.log ++ [ConnCall.Close] }

/-- A `*bufio.ReadWriter`, with the bytes it has buffered. -/
structure ReadWriter where
  buffered : List Byte
  deriving DecidableEq, Repr

/-- The argument of `hijack` and what its methods will do: `conn` is the
connection under the HTTP exchange; `hijacker` is `none` when the dynamic type
does not implement `http.Hijacker`, and otherwise the outcome of `Hijack()`,
either an error or the reader/writer handed over together with `conn`;
`setDeadlineErr` is the error that `conn.SetDeadline` returns. -/
structure Hijackable where
  conn : Conn
  hijacker : Option (Except GoError ReadWriter)
  setDeadlineErr : Option GoError

/-- The three results of `hijack` and the state in which it leaves the
connection under the exchange. The result `conn` is that connection (in its
final state) or `nil`. -/
structure HijackResult where
  conn : Option Conn
  rw : Option ReadWriter
  err : Option GoError
  world : Conn
  deriving DecidableEq, Repr

/-- Embedding of `hijack(hijackable)`. -/
def hijack (hijackable : Hijackable) : HijackResult :=
  match hijackable.hijacker with
  | none =>
    ⟨none, none, some "Connection doesn't support hijacking", hijackable.conn⟩
  | some (Except.error err) => ⟨none, none, some err, hijackable.conn⟩
  | some (Except.ok rw) =>
    let emptytime : Time := 0
    let err := hijackable.setDeadlineErr
    let conn := hijackable.conn.SetDeadline emptytime err
    if err ≠ none then
      let conn := conn.Close
      ⟨none, none, err, conn⟩
    else ⟨some conn, some rw, none, conn⟩

/-! ## TLS server configuration (`makeServerTLSConfig`) -/

/-- A `tls.Certificate` (certificate chain and private key), by name. -/
abbrev Certificate := String

/-- An `*x509.CertPool`: the certificates it holds. -/
abbrev CertPool := List String

/-- The `tls.ClientAuthType` policies; `NoClientCert` is the zero value. -/
inductive ClientAuthType where
  | NoClientCert
  | RequestClientCert
  | RequireAnyClientCert
  | VerifyClientCertIfGiven
  | RequireAndVerifyClientCert
  deriving DecidableEq, Repr

/-- The fields of `tls.Config` that `makeServerTLSConfig` sets. -/
structure Config where
  Certificates : List Certificate
  ClientCAs : Option CertPool
  ClientAuth : ClientAuthType
  deriving DecidableEq, Repr

/-- The zero value `var cfg tls.Config`. -/
def Config.zero : Config := ⟨[], none, ClientAuthType.NoClientCert⟩

/-- The outcomes of the library calls of `makeServerTLSConfig`:
`tls.LoadX509KeyPair(certfile, keyfile)`, `ioutil.ReadFile(cafile)`, and the
certificates that `AppendCertsFromPEM` parses out of the bytes of a file. -/
structure TLSEnv where
  LoadX509KeyPair : String → String → Except GoError Certificate
  ReadFile : String → Except GoError (List Byte)
  parsePEM : List Byte → List String

/-- The function `x509.NewCertPool()`. -/
def NewCertPool : CertPool := []

/-- The method `roots.AppendCertsFromPEM(certs)`: adds the certificates parsed
and reports whether at least one was parsed. -/
def AppendCertsFromPEM (env : TLSEnv) (roots : CertPool) (certs : List Byte) : CertPool × Bool :=
  (roots ++ env.parsePEM certs, !(env.parsePEM certs).isEmpty)

/-- Embedding of `makeServerTLSConfig(certfile, keyfile, cafile)`: the pair of results
`(*tls.Config, error)`. -/
def makeServerTLSConfig (env : TLSEnv) (certfile keyfile cafile : String) :
    Option Config × Option GoError :=
  let cfg := Config.zero
  match env.LoadX509KeyPair certfile keyfile with
  | Except.error err => (none, some err)
  | Except.ok cert =>
    let cfg := { cfg with Certificates := [cert] }
    if cafile ≠ "" then
      let roots := NewCertPool
      match env.ReadFile cafile with
      | Except.error err => (none, some err)
      | Except.ok certs =>
        let (roots, ok) := AppendCertsFromPEM env roots certs
        if !ok then (none, some "Failed to load CA certificates")
        else
          let cfg := { cfg with ClientCAs := some roots }
          let cfg := { cfg with ClientAuth := ClientAuthType.VerifyClientCertIfGiven }
          (some cfg, none)
    else (some cfg, none)

/-- An environment for the examples: the key pair loads, the file `ca.pem`
holds one certificate and the file `empty.pem` none, any other file is
unreadable. -/
def exampleEnv : TLSEnv :=
  { LoadX509KeyPair := fun _ _ => Except.ok "server"
    ReadFile := fun f =>
      if f = "ca.pem" then Except.ok [1] else if f = "empty.pem" then Except.ok []
      else Except.error "no such file"
    parsePEM := fun b => if b = [1] then ["root"] else [] }

/-! ## Bidirectional relay (`proxy`)

`proxy` runs four goroutines: its caller's, the two copies and the one that
waits for the `WaitGroup`. The embedding is a transition system whose steps
are the statements of these goroutines, interleaved in any order, together
with the cancellation of the context, which may happen at any time. A call
`io.Copy(dst, src)` may return at any time: the model leaves open when the
connections deliver data, an error or end of stream. -/

/-- Where the goroutine that called `proxy` stands. Each value names the
statement that it executes next. -/
inductive MainPC where
  /-- Before `wg.Add(2)`. -/
  | wgAdd
  /-- Before `go cpy(left, right)`. -/
  | goCpyLeft
  /-- Before `go cpy(right, left)`. -/
  | goCpyRight
  /-- Before `groupdone := make(chan struct{}, 1)`. -/
  | makeChan
  /-- Before `go func() { wg.Wait(); groupdone <- struct{}{} }()`. -/
  | goWait
  /-- At the `select`. -/
  | select
  /-- In the case `<-ctx.Done()`, before `left.Close()`. -/
  | closeLeft
  /-- In the case `<-ctx.Done()`, before `right.Close()`. -/
  | closeRight
  /-- At the `<-groupdone` that follows the `select`. -/
  | recvGroupdone
  /-- After `return`. -/
  | returned
  deriving DecidableEq, Repr

/-- Where a goroutine `cpy(dst, src)` stands. -/
inductive CpyPC where
  /-- The `go` statement has not been executed. -/
  | notStarted
  /-- In `io.Copy(dst, src)`, with `wg.Done()` deferred. -/
  | copying
  /-- Before `dst.Close()`. -/
  | closeDst
  /-- Before the deferred `wg.Done()`. -/
  | wgDone
  /-- The goroutine has ended. -/
  | exited
  deriving DecidableEq, Repr

/-- Where the goroutine `func() { wg.Wait(); groupdone <- struct{}{} }` stands. -/
inductive WaitPC where
  /-- The `go` statement has not been executed. -/
  | notStarted
  /-- At `wg.Wait()`. -/
  | wgWait
  /-- Before `groupdone <- struct{}{}`. -/
  | send
  /-- The goroutine has ended. -/
  | exited
  deriving DecidableEq, Repr

/-- The state of an execution of `proxy(ctx, left, right)`. -/
structure ProxyState where
  /-- The goroutine that called `proxy`. -/
  main : MainPC
  /-- The goroutine `cpy(left, right)`, whose `dst` is `left`. -/
  cpyLeft : CpyPC
  /-- The goroutine `cpy(right, left)`, whose `dst` is `right`. -/
  cpyRight : CpyPC
  /-- The goroutine that waits for `wg`. -/
  waiter : WaitPC
  /-- The counter of the `sync.WaitGroup`. -/
  wg : Nat
  /-- The number of values in the channel `groupdone`, whose capacity is 1. -/
  groupdone : Nat
  /-- Whether `ctx.Done()` is closed. -/
  ctxDone : Bool
  /-- Whether `left` has been closed. -/
  leftClosed : Bool
  /-- Whether `right` has been closed. -/
  rightClosed : Bool
  deriving DecidableEq, Repr

/-- The state at the call of `proxy`, with the context cancelled already or not. -/
def ProxyState.init (ctxDone : Bool) : ProxyState :=
  { main := MainPC.wgAdd, cpyLeft := CpyPC.notStarted, cpyRight := CpyPC.notStarted,
    waiter := WaitPC.notStarted, wg := 0, groupdone := 0, ctxDone := ctxDone,
    leftClosed := false, rightClosed := false }

/-- Who takes the next step. -/
inductive Action where
  /-- The caller's goroutine executes its next statement (not the `select`). -/
  | main
  /-- The `select` takes the case `<-ctx.Done()`. -/
  | selectCtxDone
  /-- The `select` takes the case `<-groupdone`. -/
  | selectGroupdone
  /-- The goroutine `cpy(left, right)` executes its next statement. -/
  | cpyLeft
  /-- The goroutine `cpy(right, left)` executes its next statement. -/
  | cpyRight
  /-- The waiting goroutine executes its next statement. -/
  | waiter
  /-- The context is cancelled. -/
  | cancel
  deriving DecidableEq, Repr

/-- One statement of a goroutine `cpy(dst, src)`: the new position, whether
`dst.Close()` was executed, and whether `wg.Done()` was. `none` when the
goroutine cannot move. -/
def stepCpy : CpyPC → Option (CpyPC × Bool × Bool)
  | CpyPC.notStarted => none
  | CpyPC.copying => some (CpyPC.closeDst, false, false)
  | CpyPC.closeDst => some (CpyPC.wgDone, true, false)
  | CpyPC.wgDone => some (CpyPC.exited, false, true)
  | CpyPC.exited => none

/-- One step of the system; `none` when the action is not enabled: a goroutine
that has not started or has ended, `wg.Wait()` with a positive counter, a
receive from the empty channel, a send to the full channel, a `select` case
that is not ready. -/
def step (a : Action) (s : ProxyState) : Option ProxyState :=
  match a with
  | Action.main =>
    match s.main with
    | MainPC.wgAdd => some { s with main := MainPC.goCpyLeft, wg := s.wg + 2 }
    | MainPC.goCpyLeft => some { s with main := MainPC.goCpyRight, cpyLeft := CpyPC.copying }
    | MainPC.goCpyRight => some { s with main := MainPC.makeChan, cpyRight := CpyPC.copying }
    | MainPC.makeChan => some { s with main := MainPC.goWait, groupdone := 0 }
    | MainPC.goWait => some { s with main := MainPC.select, waiter := WaitPC.wgWait }
    | MainPC.select => none
    | MainPC.closeLeft => some { s with main := MainPC.closeRight, leftClosed := true }
    | MainPC.closeRight => some { s with main := MainPC.recvGroupdone, rightClosed := true }
    | MainPC.recvGroupdone =>
      if s.groupdone > 0 then some { s with main := MainPC.returned, groupdone := s.groupdone - 1 }
      else none
    | MainPC.returned => none
  | Action.selectCtxDone =>
    if s.main = MainPC.select ∧ s.ctxDone = true then some { s with main := MainPC.closeLeft }
    else none
  | Action.selectGroupdone =>
    if s.main = MainPC.select ∧ s.groupdone > 0 then
      some { s with main := MainPC.returned, groupdone := s.groupdone - 1 }
    else none
  | Action.cpyLeft =>
    match stepCpy s.cpyLeft with
    | none => none
    | some (pc, closes, done) =>
      some { s with cpyLeft := pc, leftClosed := s.leftClosed || closes,
                    wg := if done then s.wg - 1 else s.wg }
  | Action.cpyRight =>
    match stepCpy s.cpyRight with
    | none => none
    | some (pc, closes, done) =>
      some { s with cpyRight := pc, rightClosed := s.rightClosed || closes,
                    wg := if done then s.wg - 1 else s.wg }
  | Action.waiter =>
    match s.waiter with
    | WaitPC.notStarted => none
    | WaitPC.wgWait => if s.wg = 0 then some { s with waiter := WaitPC.send } else none
    | WaitPC.send =>
      if s.groupdone < 1 then some { s with waiter := WaitPC.exited, groupdone := s.groupdone + 1 }
      else none
    | WaitPC.exited => none
  | Action.cancel => some { s with ctxDone := true }

/-- The execution that takes the given steps in turn; `none` when one of them
is not enabled. -/
def run : List Action → ProxyState → Option ProxyState
  | [], s => some s
  | a :: as, s =>
    match step a s with
    | none => none
    | some s1 => run as s1

/-- Number of `cpy` goroutines, among one, that have not called `wg.Done()`. -/
def pending (pc : CpyPC) : Nat := if pc = CpyPC.exited then 0 else 1

/-- The invariant of the executions of `proxy`: a copy goroutine past its
`dst.Close()` has closed its destination; once `wg.Add(2)` is done the
counter of `wg` is the number of copy goroutines that have not called
`wg.Done()`; the goroutines start in the order of the `go` statements; the
waiting goroutine sends on `groupdone` only with the counter at zero, and
`proxy` returns only by receiving what it sent; on the cancellation branch the
connections are closed in turn. -/
def ProxyInv (s : ProxyState) : Prop :=
  (s.cpyLeft = CpyPC.wgDone ∨ s.cpyLeft = CpyPC.exited → s.leftClosed = true) ∧
  (s.cpyRight = CpyPC.wgDone ∨ s.cpyRight = CpyPC.exited → s.rightClosed = true) ∧
  (s.main = MainPC.wgAdd → s.wg = 0) ∧
  (s.main ≠ MainPC.wgAdd → s.wg = pending s.cpyLeft + pending s.cpyRight) ∧
  (s.cpyLeft ≠ CpyPC.notStarted → s.main ≠ MainPC.wgAdd ∧ s.main ≠ MainPC.goCpyLeft) ∧
  (s.cpyRight ≠ CpyPC.notStarted →
    s.main ≠ MainPC.wgAdd ∧ s.main ≠ MainPC.goCpyLeft ∧ s.main ≠ MainPC.goCpyRight) ∧
  (s.waiter = WaitPC.notStarted ↔
    (s.main = MainPC.wgAdd ∨ s.main = MainPC.goCpyLeft ∨ s.main = MainPC.goCpyRight ∨
      s.main = MainPC.makeChan ∨ s.main = MainPC.goWait)) ∧
  (s.waiter = WaitPC.notStarted → s.groupdone = 0) ∧
  (s.waiter = WaitPC.wgWait → s.groupdone = 0 ∧ s.main ≠ MainPC.returned) ∧
  (s.waiter = WaitPC.send →
    s.groupdone = 0 ∧ s.main ≠ MainPC.returned ∧ s.wg = 0) ∧
  (s.waiter = WaitPC.exited →
    s.wg = 0 ∧ (s.main = MainPC.returned ∧ s.groupdone = 0 ∨
      s.main ≠ MainPC.returned ∧ s.groupdone = 1)) ∧
  (s.main = MainPC.closeRight → s.leftClosed = true) ∧
  (s.main = MainPC.recvGroupdone → s.leftClosed = true ∧ s.rightClosed = true)

/-- An execution in which the context is cancelled at the `select`, while both
copies are running. -/
def cancelledRun : List Action :=
  [Action.main, Action.main, Action.main, Action.main, Action.main, Action.cancel,
    Action.selectCtxDone, Action.main, Action.main, Action.cpyLeft, Action.cpyLeft,
    Action.cpyLeft, Action.cpyRight, Action.cpyRight, Action.cpyRight, Action.waiter,
    Action.waiter, Action.main]

/-- The state in which `cancelledRun` ends. -/
def cancelledEnd : ProxyState :=
  { main := MainPC.returned, cpyLeft := CpyPC.exited, cpyRight := CpyPC.exited,
    waiter := WaitPC.exited, wg := 0, groupdone := 0, ctxDone := true,
    leftClosed := true, rightClosed := true }

/-- An execution without cancellation, in which both copies end by themselves. -/
def completedRun : List Action :=
  [Action.main, Action.main, Action.main, Action.main, Action.main, Action.cpyRight,
    Action.cpyRight, Action.cpyLeft, Action.cpyRight, Action.cpyLeft, Action.cpyLeft,
    Action.waiter, Action.waiter, Action.selectGroupdone]

/-- The state in which `completedRun` ends. -/
def completedEnd : ProxyState :=
  { main := MainPC.returned, cpyLeft := CpyPC.exited, cpyRight := CpyPC.exited,
    waiter := WaitPC.exited, wg := 0, groupdone := 0, ctxDone := false,
    leftClosed := true, rightClosed := true }

/-! # Theorems -/

/-! ### Lemmas on `copyBody` -/

lemma copyBodyLoop_run (wr : Writer) (body : Reader) :
    ∀ (k n fuel : Nat),
      (∀ m, n ≤ m → m < n + k → iterFails wr body m = false) →
      iterFails wr body (n + k) = true → k < fuel →
      copyBodyLoop wr body fuel n (writesBefore body n)
        = some ((List.range' n (k + 1)).flatMap (iterCalls wr body)) := by
  intro k
  induction k with
  | zero =>
    intro n fuel _ hfail hfuel
    obtain ⟨f, rfl⟩ : ∃ f, fuel = f + 1 := ⟨fuel - 1, by omega⟩
    simp only [Nat.add_zero, iterFails, Bool.or_eq_true, Bool.and_eq_true,
      decide_eq_true_eq, Option.isSome_iff_ne_none] at hfail
    unfold copyBodyLoop
    by_cases hpos : (body n COPY_BUF).data.length > 0
    · have : (body n COPY_BUF).err ≠ none ∨
          wr.Write (writesBefore body n) (body n COPY_BUF).data ≠ none := by
        rcases hfail with h | ⟨_, h⟩
        · exact Or.inl h
        · exact Or.inr h
      simp [hpos, this, iterCalls]
    · have : (body n COPY_BUF).err ≠ none := by
        rcases hfail with h | ⟨h, _⟩
        · exact h
        · exact absurd h hpos
      simp [hpos, this, iterCalls]
  | succ k ih =>
    intro n fuel hok hfail hfuel
    obtain ⟨f, rfl⟩ : ∃ f, fuel = f + 1 := ⟨fuel - 1, by omega⟩
    have h0 := hok n (Nat.le_refl n) (by omega)
    simp only [iterFails, Bool.or_eq_false_iff, Bool.and_eq_false_iff,
      decide_eq_false_iff_not] at h0
    have herr : (body n COPY_BUF).err = none := by
      cases h : (body n COPY_BUF).err with
      | none => rfl
      | some e => rw [h] at h0; simp at h0
    have ih' := ih (n + 1) f (fun m h1 h2 => hok m (by omega) (by omega))
      (by rw [show n + 1 + k = n + (k + 1) by omega]; exact hfail) (by omega)
    rw [List.range'_succ, List.flatMap_cons]
    unfold copyBodyLoop
    by_cases hpos : (body n COPY_BUF).data.length > 0
    · have hw : wr.Write (writesBefore body n) (body n COPY_BUF).data = none := by
        rcases h0.2 with h | h
        · exact absurd hpos h
        · cases h2 : wr.Write (writesBefore body n) (body n COPY_BUF).data with
          | none => rfl
          | some e => rw [h2] at h; simp at h
      have hwb : writesBefore body (n + 1) = writesBefore body n + 1 := by
        simp [writesBefore, hpos]
      rw [hwb] at ih'
      simp [hpos, herr, hw, ih', iterCalls]
    · have hwb : writesBefore body (n + 1) = writesBefore body n := by
        simp [writesBefore, hpos]
      rw [hwb] at ih'
      simp [hpos, herr, ih', iterCalls]

lemma readsOf_flatMap_iterCalls (wr : Writer) (body : Reader) (l : List Nat) :
    readsOf (l.flatMap (iterCalls wr body)) = l.map (fun n => body n COPY_BUF) := by
  induction l with
  | nil => rfl
  | cons a t ih =>
    rw [List.flatMap_cons, List.map_cons, ← ih]
    by_cases h : (body a COPY_BUF).data.length > 0 <;> simp [iterCalls, h, readsOf]

lemma writesOf_flatMap_iterCalls (wr : Writer) (body : Reader) (l : List Nat) :
    writesOf (l.flatMap (iterCalls wr body))
      = (l.map (fun n => (body n COPY_BUF).data)).filter (fun p => decide (p ≠ [])) := by
  induction l with
  | nil => rfl
  | cons a t ih =>
    rw [List.flatMap_cons, List.map_cons, List.filter_cons, ← ih]
    by_cases h : (body a COPY_BUF).data.length > 0
    · have h2 : (body a COPY_BUF).data ≠ [] := by
        intro h3; rw [h3] at h; simp at h
      simp [iterCalls, h, h2, writesOf]
    · have h2 : (body a COPY_BUF).data = [] := by
        cases h3 : (body a COPY_BUF).data with
        | nil => rfl
        | cons x xs => rw [h3] at h; simp at h
      simp [iterCalls, h2, writesOf]

lemma flushesOf_flatMap_iterCalls (wr : Writer) (body : Reader) (l : List Nat) :
    flushesOf (l.flatMap (iterCalls wr body))
      = List.replicate (writesOf (l.flatMap (iterCalls wr body))).length (flush wr) := by
  induction l with
  | nil => rfl
  | cons a t ih =>
    rw [List.flatMap_cons]
    by_cases h : (body a COPY_BUF).data.length > 0
    · simp [iterCalls, h, writesOf, flushesOf, ih, List.replicate_succ]
    · simp [iterCalls, h, writesOf, flushesOf, ih]

lemma flushDiscipline_flatMap_iterCalls (wr : Writer) (body : Reader) (l : List Nat) :
    flushDiscipline (l.flatMap (iterCalls wr body)) = true := by
  induction l with
  | nil => rfl
  | cons a t ih =>
    rw [List.flatMap_cons]
    by_cases h : (body a COPY_BUF).data.length > 0
    · simp [iterCalls, h, flushDiscipline, ih]
    · simp [iterCalls, h, flushDiscipline, ih]

lemma flatten_filter_ne_nil (l : List (List Byte)) :
    (l.filter (fun p => decide (p ≠ []))).flatten = l.flatten := by
  induction l with
  | nil => rfl
  | cons a t ih =>
    cases a with
    | nil => simpa using ih
    | cons x xs => simp only [List.filter_cons]; simpa using ih

lemma map_getD_range (script : List ReadResult) (d : ReadResult) :
    (List.range' 0 script.length).map (fun n => script.getD n d) = script := by
  apply List.ext_getElem
  · simp
  · intro i h1 h2
    simp [List.getElem?_eq_getElem h2]

lemma scriptReader_iterFails_last (wr : Writer) (pre : List ReadResult) (last : ReadResult)
    (hlast : last.err ≠ none) :
    iterFails wr (scriptReader (pre ++ [last])) pre.length = true := by
  have h : (scriptReader (pre ++ [last])) pre.length COPY_BUF = last := by
    simp [scriptReader]
  cases he : last.err with
  | none => exact absurd he hlast
  | some e => simp [iterFails, h, he]

lemma scriptReader_iterFails_pre (wr : Writer) (pre : List ReadResult) (last : ReadResult)
    (hpre : ∀ r ∈ pre, r.err = none) (hwr : ∀ k p, wr.Write k p = none)
    (m : Nat) (hm : m < pre.length) :
    iterFails wr (scriptReader (pre ++ [last])) m = false := by
  have h : (scriptReader (pre ++ [last])) m COPY_BUF = pre[m] := by
    simp [scriptReader, List.getElem?_append_left hm, List.getElem?_eq_getElem hm]
  have he : pre[m].err = none := hpre _ (List.getElem_mem hm)
  simp [iterFails, h, he, hwr]

/-- C1: when the reader plays a finite script whose only error is at its last
entry and every `Write` succeeds, `copyBody` returns, having read the whole
script; its `Write` calls are exactly the non-empty chunks read, in order, so
that the bytes written are the concatenation of all the bytes read (those
that came with the final error included); no `Write` gets zero bytes; one
`flush` follows each `Write` immediately and there is no other `flush`. -/
theorem copyBody_writes_chunks_and_flushes (wr : Writer) (pre : List ReadResult)
    (last : ReadResult) (hpre : ∀ r ∈ pre, r.err = none) (hlast : last.err ≠ none)
    (hwr : ∀ k p, wr.Write k p = none) (fuel : Nat) (hfuel : pre.length < fuel) :
    ∃ tr, copyBody fuel wr (scriptReader (pre ++ [last])) = some tr ∧
      readsOf tr = pre ++ [last] ∧
      writesOf tr = ((pre ++ [last]).map (fun r => r.data)).filter (fun p => decide (p ≠ [])) ∧
      (writesOf tr).flatten = ((pre ++ [last]).map (fun r => r.data)).flatten ∧
      (∀ p ∈ writesOf tr, p ≠ []) ∧
      flushDiscipline tr = true ∧
      flushesOf tr = List.replicate (writesOf tr).length wr.isFlusher := by
  have hrun := copyBodyLoop_run wr (scriptReader (pre ++ [last])) pre.length 0 fuel
    (fun m _ h2 => scriptReader_iterFails_pre wr pre last hpre hwr m (by omega))
    (by rw [Nat.zero_add]; exact scriptReader_iterFails_last wr pre last hlast) hfuel
  have hlen : pre.length + 1 = (pre ++ [last]).length := by simp
  have hreads : (List.range' 0 (pre.length + 1)).map
      (fun n => scriptReader (pre ++ [last]) n COPY_BUF) = pre ++ [last] := by
    rw [hlen]; exact map_getD_range (pre ++ [last]) _
  have hdata : (List.range' 0 (pre.length + 1)).map
      (fun n => (scriptReader (pre ++ [last]) n COPY_BUF).data)
        = (pre ++ [last]).map (fun r => r.data) := by
    conv_rhs => rw [← hreads]
    rw [List.map_map]; rfl
  have hwrites := writesOf_flatMap_iterCalls wr (scriptReader (pre ++ [last]))
    (List.range' 0 (pre.length + 1))
  rw [hdata] at hwrites
  refine ⟨_, hrun, ?_, hwrites, ?_, ?_, ?_, ?_⟩
  · rw [readsOf_flatMap_iterCalls, hreads]
  · rw [hwrites, flatten_filter_ne_nil]
  · intro p hp
    rw [hwrites, List.mem_filter] at hp
    simpa using hp.2
  · exact flushDiscipline_flatMap_iterCalls _ _ _
  · rw [flushesOf_flatMap_iterCalls]
    cases hf : wr.isFlusher <;> simp [flush, hf]

/-- C1 witness: a three-entry script (data, an empty read, data together with `EOF`). -/
theorem copyBody_writes_chunks_and_flushes_witness :
    ∃ tr, copyBody 3 (Writer.mk (fun _ _ => none) true)
        (scriptReader ([ReadResult.mk [1, 2] none, ReadResult.mk [] none] ++
          [ReadResult.mk [3] (some "EOF")])) = some tr ∧
      readsOf tr = [ReadResult.mk [1, 2] none, ReadResult.mk [] none] ++
        [ReadResult.mk [3] (some "EOF")] ∧
      writesOf tr = (([ReadResult.mk [1, 2] none, ReadResult.mk [] none] ++
        [ReadResult.mk [3] (some "EOF")]).map (fun r => r.data)).filter
          (fun p => decide (p ≠ [])) ∧
      (writesOf tr).flatten = (([ReadResult.mk [1, 2] none, ReadResult.mk [] none] ++
        [ReadResult.mk [3] (some "EOF")]).map (fun r => r.data)).flatten ∧
      (∀ p ∈ writesOf tr, p ≠ []) ∧
      flushDiscipline tr = true ∧
      flushesOf tr = List.replicate (writesOf tr).length true :=
  copyBody_writes_chunks_and_flushes (Writer.mk (fun _ _ => none) true)
    [ReadResult.mk [1, 2] none, ReadResult.mk [] none]
    (ReadResult.mk [3] (some "EOF")) (by decide) (by decide) (fun _ _ => rfl) 3 (by decide)

/-- C2: if iteration `n` is the first one in which `Read` or `Write` returns an
error, `copyBody` returns, and its calls are exactly those of iterations
`0 .. n`: it made `n + 1` reads, the last one in iteration `n`, and wrote the
non-empty chunks of those reads and nothing else. A read of zero bytes without
error makes no `Write` and does not end the loop. -/
theorem copyBody_stops_at_first_error (wr : Writer) (body : Reader) (n : Nat)
    (hfail : iterFails wr body n = true) (hfirst : ∀ m, m < n → iterFails wr body m = false)
    (fuel : Nat) (hfuel : n < fuel) :
    ∃ tr, copyBody fuel wr body = some tr ∧
      tr = (List.range' 0 (n + 1)).flatMap (iterCalls wr body) ∧
      readsOf tr = (List.range' 0 (n + 1)).map (fun i => body i COPY_BUF) ∧
      (readsOf tr).length = n + 1 ∧
      writesOf tr = ((List.range' 0 (n + 1)).map (fun i => (body i COPY_BUF).data)).filter
        (fun p => decide (p ≠ [])) := by
  have hrun := copyBodyLoop_run wr body n 0 fuel
    (fun m _ h2 => hfirst m (by omega)) (by rw [Nat.zero_add]; exact hfail) hfuel
  refine ⟨_, hrun, rfl, ?_, ?_, ?_⟩
  · exact readsOf_flatMap_iterCalls _ _ _
  · rw [readsOf_flatMap_iterCalls]; simp
  · exact writesOf_flatMap_iterCalls _ _ _

/-- C2 witness: the second `Write` fails, in the third iteration, although
the reader would go on. -/
theorem copyBody_stops_at_first_error_witness :
    ∃ tr, copyBody 5 ⟨fun k _ => if k = 1 then some "broken pipe" else none, false⟩
        (fun i _ => if i = 1 then ⟨[], none⟩ else ⟨[7], none⟩) = some tr ∧
      tr = (List.range' 0 (2 + 1)).flatMap
        (iterCalls ⟨fun k _ => if k = 1 then some "broken pipe" else none, false⟩
          (fun i _ => if i = 1 then ⟨[], none⟩ else ⟨[7], none⟩)) ∧
      readsOf tr = (List.range' 0 (2 + 1)).map
        (fun i => (fun i _ => if i = 1 then (⟨[], none⟩ : ReadResult) else ⟨[7], none⟩)
          i COPY_BUF) ∧
      (readsOf tr).length = 2 + 1 ∧
      writesOf tr = ((List.range' 0 (2 + 1)).map
        (fun i => ((fun i _ => if i = 1 then (⟨[], none⟩ : ReadResult) else ⟨[7], none⟩)
          i COPY_BUF).data)).filter (fun p => decide (p ≠ [])) :=
  copyBody_stops_at_first_error ⟨fun k _ => if k = 1 then some "broken pipe" else none, false⟩
    (fun i _ => if i = 1 then ⟨[], none⟩ else ⟨[7], none⟩) 2 (by decide) (by decide) 5
    (by decide)

/-! ### Lemmas on header names -/

lemma toNat_ofNat_small (n : Nat) (h : n < 55296) : (Char.ofNat n).toNat = n := by
  have hv : n.isValidChar := Or.inl h
  simp only [Char.ofNat, hv, Char.toNat, Char.ofNatAux, dite_true]
  simp [UInt32.toNat, BitVec.toNat_ofNatLt]

lemma char_eq_of_toNat_eq {c d : Char} (h : c.toNat = d.toNat) : c = d := by
  rw [← Char.ofNat_toNat c, ← Char.ofNat_toNat d, h]

lemma lowerByte_eq_cases {c d : Char} (h : lowerByte c = lowerByte d) :
    c.toNat = d.toNat ∨ (65 ≤ c.toNat ∧ c.toNat ≤ 90 ∧ d.toNat = c.toNat + 32) ∨
      (65 ≤ d.toNat ∧ d.toNat ≤ 90 ∧ c.toNat = d.toNat + 32) := by
  have h1 := congrArg Char.toNat h
  unfold lowerByte isUpperAZ at h1
  by_cases hc : 65 ≤ c.toNat ∧ c.toNat ≤ 90
  · by_cases hd : 65 ≤ d.toNat ∧ d.toNat ≤ 90
    · simp only [hc.1, hc.2, hd.1, hd.2, decide_True, Bool.and_self, if_true] at h1
      rw [toNat_ofNat_small _ (by omega), toNat_ofNat_small _ (by omega)] at h1
      left; omega
    · have hd2 : (decide (65 ≤ d.toNat) && decide (d.toNat ≤ 90)) = false := by
        simpa using fun h => by omega
      simp only [hc.1, hc.2, hd2, decide_True, Bool.and_self, if_true] at h1
      rw [toNat_ofNat_small _ (by omega)] at h1
      right; left; simp at h1; omega
  · have hc2 : (decide (65 ≤ c.toNat) && decide (c.toNat ≤ 90)) = false := by
      simpa using fun h => by omega
    by_cases hd : 65 ≤ d.toNat ∧ d.toNat ≤ 90
    · simp only [hc2, hd.1, hd.2, decide_True, Bool.and_self, if_true] at h1
      rw [toNat_ofNat_small _ (by omega)] at h1
      right; right; simp at h1; omega
    · have hd2 : (decide (65 ≤ d.toNat) && decide (d.toNat ≤ 90)) = false := by
        simpa using fun h => by omega
      simp only [hc2, hd2] at h1
      left; simpa using h1

lemma canonicalByte_toNat (upper : Bool) (c : Char) :
    (canonicalByte upper c).toNat =
      if upper = true ∧ 97 ≤ c.toNat ∧ c.toNat ≤ 122 then c.toNat - 32
      else if upper = false ∧ 65 ≤ c.toNat ∧ c.toNat ≤ 90 then c.toNat + 32
      else c.toNat := by
  unfold canonicalByte isLowerAZ isUpperAZ
  cases upper
  · by_cases h : 65 ≤ c.toNat ∧ c.toNat ≤ 90
    · simp only [h.1, h.2]
      simp
      exact toNat_ofNat_small _ (by omega)
    · have h2 : ¬ (65 ≤ c.toNat ∧ c.toNat ≤ 90) := h
      simp [h2]
  · by_cases h : 97 ≤ c.toNat ∧ c.toNat ≤ 122
    · simp only [h.1, h.2]
      simp
      exact toNat_ofNat_small _ (by omega)
    · simp [h]

lemma canonicalByte_congr (upper : Bool) {c d : Char} (h : lowerByte c = lowerByte d) :
    canonicalByte upper c = canonicalByte upper d := by
  apply char_eq_of_toNat_eq
  rw [canonicalByte_toNat, canonicalByte_toNat]
  rcases lowerByte_eq_cases h with h1 | h1 | h1
  · rw [h1]
  · cases upper <;> simp <;> split_ifs <;> omega
  · cases upper <;> simp <;> split_ifs <;> omega

lemma validHeaderFieldByte_congr {c d : Char} (h : lowerByte c = lowerByte d)
    (hd : validHeaderFieldByte d = true) : validHeaderFieldByte c = true := by
  rcases lowerByte_eq_cases h with h1 | h1 | h1
  · unfold validHeaderFieldByte isUpperAZ isLowerAZ at *
    rw [h1]; exact hd
  · unfold validHeaderFieldByte isUpperAZ
    simp [h1.1, h1.2.1]
  · unfold validHeaderFieldByte isUpperAZ isLowerAZ
    have h2 : 97 ≤ c.toNat := by omega
    have h3 : c.toNat ≤ 122 := by omega
    simp [h2, h3]

lemma canonicalLoop_congr : ∀ (cs ds : List Char) (upper : Bool),
    cs.map lowerByte = ds.map lowerByte → canonicalLoop upper cs = canonicalLoop upper ds
  | [], [], _, _ => rfl
  | [], _ :: _, _, h => by simp at h
  | _ :: _, [], _, h => by simp at h
  | c :: cs, d :: ds, upper, h => by
    simp only [List.map_cons, List.cons.injEq] at h
    simp only [canonicalLoop]
    rw [canonicalByte_congr upper h.1, canonicalLoop_congr cs ds _ h.2]

lemma all_valid_congr : ∀ (cs ds : List Char),
    cs.map lowerByte = ds.map lowerByte → ds.all validHeaderFieldByte = true →
      cs.all validHeaderFieldByte = true
  | [], _, _, _ => rfl
  | _ :: _, [], h, _ => by simp at h
  | c :: cs, d :: ds, h, hd => by
    simp only [List.map_cons, List.cons.injEq] at h
    simp only [List.all_cons, Bool.and_eq_true] at hd ⊢
    exact ⟨validHeaderFieldByte_congr h.1 hd.1, all_valid_congr cs ds h.2 hd.2⟩

lemma hopHeaders_valid : ∀ h ∈ hopHeaders, h.data.all validHeaderFieldByte = true := by
  decide

lemma hopHeaders_canonical : hopHeaders.map CanonicalMIMEHeaderKey = hopHeaders := by
  decide

lemma hopHeaders_fixed : ∀ h ∈ hopHeaders, CanonicalMIMEHeaderKey h = h := by
  decide

/-- A key in canonical form that matches a hop-by-hop name up to letter case
is that name exactly as `hopHeaders` spells it. -/
lemma canonical_hop_mem (k : String) (hk : CanonicalMIMEHeaderKey k = k)
    (hhop : isHopName k = true) : k ∈ hopHeaders := by
  unfold isHopName at hhop
  rw [List.any_eq_true] at hhop
  obtain ⟨h, hmem, hfold⟩ := hhop
  have hmap : k.data.map lowerByte = h.data.map lowerByte := by
    simpa [equalFold] using hfold
  have hvalid := all_valid_congr _ _ hmap (hopHeaders_valid h hmem)
  have hcanon : CanonicalMIMEHeaderKey k = CanonicalMIMEHeaderKey h := by
    unfold CanonicalMIMEHeaderKey
    rw [hvalid, hopHeaders_valid h hmem, canonicalLoop_congr _ _ true hmap]
    simp
  rw [← hk, hcanon, hopHeaders_fixed h hmem]
  exact hmem

lemma isHopName_of_mem (k : String) (hk : k ∈ hopHeaders) : isHopName k = true := by
  unfold isHopName
  rw [List.any_eq_true]
  exact ⟨k, hk, by simp [equalFold]⟩

/-! ### Lemmas on header maps -/

lemma Header.get?_nil (k : String) : Header.get? [] k = none := rfl

lemma Header.get?_cons (a : String × List String) (t : Header) (k : String) :
    Header.get? (a :: t) k = if a.1 = k then some a.2 else Header.get? t k := by
  unfold Header.get?
  by_cases h : a.1 = k <;> simp [List.find?_cons, h]

lemma Header.get?_delete (h : Header) (k k1 : String) :
    (h.delete k).get? k1 = if k1 = k then none else h.get? k1 := by
  induction h with
  | nil => simp [Header.delete, Header.get?_nil]
  | cons a t ih =>
    unfold Header.delete at ih ⊢
    by_cases ha : a.1 = k
    · rw [List.filter_cons_of_neg (by simpa using ha), ih, Header.get?_cons]
      by_cases hk : k1 = k
      · simp [hk]
      · have : a.1 ≠ k1 := fun h2 => hk (by rw [← h2, ha])
        simp [hk, this]
    · rw [List.filter_cons_of_pos (by simpa using ha), Header.get?_cons, Header.get?_cons, ih]
      by_cases hk : k1 = k
      · have : a.1 ≠ k1 := fun h2 => ha (by rw [h2, hk])
        simp [hk, this, ha]
      · simp [hk]

lemma Header.get?_set (h : Header) (k k1 : String) (vs : List String) :
    (h.set k vs).get? k1 = if k1 = k then some vs else h.get? k1 := by
  unfold Header.set
  rw [Header.get?_cons, Header.get?_delete]
  by_cases hk : k1 = k
  · simp [hk]
  · have : k ≠ k1 := fun h2 => hk h2.symm
    simp [hk, this]

lemma Header.get?_Add (h : Header) (key v k : String) :
    (h.Add key v).get? k =
      if k = CanonicalMIMEHeaderKey key then some (h.values k ++ [v]) else h.get? k := by
  unfold Header.Add
  simp only [Header.get?_set]
  by_cases hk : k = CanonicalMIMEHeaderKey key
  · simp [hk]
  · simp [hk]

lemma Header.values_Add (h : Header) (key v k : String) :
    (h.Add key v).values k =
      if k = CanonicalMIMEHeaderKey key then h.values k ++ [v] else h.values k := by
  unfold Header.values
  rw [Header.get?_Add]
  by_cases hk : k = CanonicalMIMEHeaderKey key
  · simp [hk, Header.values]
  · simp [hk]

lemma Header.mem_keys_iff (h : Header) (k : String) : k ∈ h.keys ↔ h.get? k ≠ none := by
  induction h with
  | nil => simp [Header.keys, Header.get?_nil]
  | cons a t ih =>
    rw [Header.get?_cons]
    unfold Header.keys at ih ⊢
    by_cases ha : a.1 = k
    · simp [ha]
    · have : ¬ k = a.1 := fun h2 => ha h2.symm
      simp only [List.map_cons, List.mem_cons, this, false_or, ha, if_false]
      exact ih

lemma Header.values_eq_nil_of_not_mem (h : Header) (k : String) (hk : k ∉ h.keys) :
    h.values k = [] := by
  have : h.get? k = none := by
    by_contra hne
    exact hk ((Header.mem_keys_iff h k).2 hne)
  simp [Header.values, this]

lemma Header.mem_keys_delete (h : Header) (k k1 : String) :
    k1 ∈ (h.delete k).keys ↔ k1 ∈ h.keys ∧ k1 ≠ k := by
  rw [Header.mem_keys_iff, Header.mem_keys_iff, Header.get?_delete]
  by_cases hk : k1 = k <;> simp [hk]

lemma foldl_Del_eq_filter (l : List String) : ∀ h : Header,
    l.foldl Header.Del h
      = h.filter (fun e => !(l.map CanonicalMIMEHeaderKey).contains e.1) := by
  induction l with
  | nil => intro h; simp
  | cons a t ih =>
    intro h
    rw [List.foldl_cons, ih]
    unfold Header.Del Header.delete
    rw [List.filter_filter]
    congr 1
    funext e
    by_cases h1 : e.1 = CanonicalMIMEHeaderKey a <;> simp [h1]

lemma foldl_update {α : Type} (f : Header → α → Header) (r : Ref) : ∀ (l : List α) (σ : Store),
    l.foldl (fun σ1 x => Function.update σ1 r (f (σ1 r) x)) σ
      = Function.update σ r (l.foldl f (σ r)) := by
  intro l
  induction l with
  | nil => intro σ; simp
  | cons a t ih =>
    intro σ
    rw [List.foldl_cons, ih, List.foldl_cons]
    simp

/-- What `delHopHeaders` does to any map: it drops the entries whose key is
spelled exactly as in `hopHeaders`, and nothing else. -/
lemma delHopHeaders_eq (r : Ref) (σ : Store) :
    delHopHeaders r σ
      = Function.update σ r ((σ r).filter (fun e => !hopHeaders.contains e.1)) := by
  unfold delHopHeaders Store.Del
  rw [foldl_update Header.Del r hopHeaders σ, foldl_Del_eq_filter, hopHeaders_canonical]

lemma delHopHeaders_apply (r : Ref) (σ : Store) :
    delHopHeaders r σ r = (σ r).filter (fun e => !hopHeaders.contains e.1) := by
  rw [delHopHeaders_eq]; simp

lemma delHopHeaders_apply_ne (r r1 : Ref) (σ : Store) (h : r1 ≠ r) :
    delHopHeaders r σ r1 = σ r1 := by
  rw [delHopHeaders_eq]; simp [h]

lemma Header.get?_filter_keys (p : String → Bool) (h : Header) (k : String) :
    Header.get? (h.filter (fun e => p e.1)) k = if p k then h.get? k else none := by
  induction h with
  | nil => simp [Header.get?_nil]
  | cons a t ih =>
    by_cases ha : p a.1 = true
    · simp only [List.filter_cons, ha, if_true]
      rw [Header.get?_cons, Header.get?_cons, ih]
      by_cases hk : a.1 = k
      · rw [← hk]; simp [ha]
      · simp [hk]
    · simp only [List.filter_cons, ha, Bool.false_eq_true, if_false]
      rw [ih, Header.get?_cons]
      by_cases hk : a.1 = k
      · rw [← hk]; simp [ha]
      · simp [hk]

lemma not_contains_of_not_hop (k : String) (h : isHopName k = false) :
    hopHeaders.contains k = false := by
  by_contra hc
  have hmem : k ∈ hopHeaders := by simpa using hc
  rw [isHopName_of_mem k hmem] at h
  exact Bool.noConfusion h

/-- On a map whose keys are in canonical form, `delHopHeaders` removes the
hop-by-hop names in any letter case and keeps the rest. -/
lemma delHopHeaders_canonical_keys (r : Ref) (σ : Store)
    (hcanon : ∀ k ∈ (σ r).keys, CanonicalMIMEHeaderKey k = k) :
    (∀ k, isHopName k = true → k ∉ (delHopHeaders r σ r).keys) ∧
    (∀ k, isHopName k = false → (delHopHeaders r σ r).get? k = (σ r).get? k) ∧
    (∀ r1, r1 ≠ r → delHopHeaders r σ r1 = σ r1) ∧
    ((∀ k ∈ (σ r).keys, isHopName k = false) → delHopHeaders r σ = σ) := by
  refine ⟨?_, ?_, ?_, ?_⟩
  · intro k hhop hmem
    rw [delHopHeaders_apply, Header.mem_keys_iff,
      Header.get?_filter_keys (fun k => !hopHeaders.contains k)] at hmem
    by_cases hc : hopHeaders.contains k = true
    · rw [hc] at hmem
      simp at hmem
    · have hc2 : hopHeaders.contains k = false := by simpa using hc
      simp only [hc2, Bool.not_false, if_true] at hmem
      have hk := (Header.mem_keys_iff (σ r) k).2 hmem
      have := canonical_hop_mem k (hcanon k hk) hhop
      exact hc (by simpa using this)
  · intro k hhop
    rw [delHopHeaders_apply, Header.get?_filter_keys (fun k => !hopHeaders.contains k),
      not_contains_of_not_hop k hhop]
    simp
  · intro r1 h1
    exact delHopHeaders_apply_ne r r1 σ h1
  · intro hnone
    rw [delHopHeaders_eq]
    have hfilter : (σ r).filter (fun e => !hopHeaders.contains e.1) = σ r := by
      rw [List.filter_eq_self]
      intro e he
      have hk : e.1 ∈ (σ r).keys := List.mem_map_of_mem Prod.fst he
      rw [not_contains_of_not_hop e.1 (hnone e.1 hk)]
      rfl
    rw [hfilter, Function.update_eq_self]

/-- C5, as the code has it: on a header map whose keys are all in canonical
form (the form in which `net/http` stores them), after `delHopHeaders` no key
that matches one of the nine hop-by-hop names in any letter case remains, every
other key is still present with its value sequence unchanged, the other maps
are untouched, and a map that holds none of the nine names is left unchanged. -/
theorem delHopHeaders_removes_hop_names (r : Ref) (σ : Store)
    (hcanon : ∀ k ∈ (σ r).keys, CanonicalMIMEHeaderKey k = k) :
    (∀ k, isHopName k = true → k ∉ (delHopHeaders r σ r).keys) ∧
    (∀ k, isHopName k = false → (delHopHeaders r σ r).get? k = (σ r).get? k) ∧
    (∀ r1, r1 ≠ r → delHopHeaders r σ r1 = σ r1) ∧
    ((∀ k ∈ (σ r).keys, isHopName k = false) → delHopHeaders r σ = σ) :=
  delHopHeaders_canonical_keys r σ hcanon

/-- C5 witness: a request header with two hop-by-hop entries among others. -/
theorem delHopHeaders_removes_hop_names_witness :
    (∀ k, isHopName k = true → k ∉ (delHopHeaders 0
      (fun _ => [("Connection", ["close"]), ("X-Foo", ["1", "2"]), ("Te", ["trailers"])])
        0).keys) ∧
    (∀ k, isHopName k = false → (delHopHeaders 0
      (fun _ => [("Connection", ["close"]), ("X-Foo", ["1", "2"]), ("Te", ["trailers"])])
        0).get? k = Header.get?
          [("Connection", ["close"]), ("X-Foo", ["1", "2"]), ("Te", ["trailers"])] k) ∧
    (∀ r1, r1 ≠ 0 → delHopHeaders 0
      (fun _ => [("Connection", ["close"]), ("X-Foo", ["1", "2"]), ("Te", ["trailers"])]) r1
        = [("Connection", ["close"]), ("X-Foo", ["1", "2"]), ("Te", ["trailers"])]) ∧
    ((∀ k ∈ Header.keys
        [("Connection", ["close"]), ("X-Foo", ["1", "2"]), ("Te", ["trailers"])],
        isHopName k = false) → delHopHeaders 0
      (fun _ => [("Connection", ["close"]), ("X-Foo", ["1", "2"]), ("Te", ["trailers"])])
        = fun _ => [("Connection", ["close"]), ("X-Foo", ["1", "2"]), ("Te", ["trailers"])]) :=
  delHopHeaders_removes_hop_names 0
    (fun _ => [("Connection", ["close"]), ("X-Foo", ["1", "2"]), ("Te", ["trailers"])])
    (by decide)

/-- C5 counterexample: a key stored as `connection`, in lower case, matches the
hop-by-hop name `Connection` and is still in the map after `delHopHeaders`. -/
theorem delHopHeaders_keeps_lowercase_key :
    isHopName "connection" = true ∧
      "connection" ∈ (delHopHeaders 0 (fun _ => [("connection", ["close"])]) 0).keys := by
  decide

/-- C8: `delHopHeaders` is idempotent. -/
theorem delHopHeaders_idempotent (r : Ref) (σ : Store) :
    delHopHeaders r (delHopHeaders r σ) = delHopHeaders r σ := by
  rw [delHopHeaders_eq r (delHopHeaders r σ), delHopHeaders_apply, delHopHeaders_eq r σ,
    List.filter_filter]
  simp

/-! ### Lemmas on `copyHeader` -/

lemma foldl_Add_values (key k : String) : ∀ (vv : List String) (h : Header),
    (vv.foldl (fun h1 v => h1.Add key v) h).values k =
      if k = CanonicalMIMEHeaderKey key then h.values k ++ vv else h.values k := by
  intro vv
  induction vv with
  | nil => intro h; simp
  | cons v t ih =>
    intro h
    rw [List.foldl_cons, ih, Header.values_Add]
    by_cases hk : k = CanonicalMIMEHeaderKey key <;> simp [hk]

lemma foldl_Add_get? (key k : String) (hk : k ≠ CanonicalMIMEHeaderKey key) :
    ∀ (vv : List String) (h : Header),
      (vv.foldl (fun h1 v => h1.Add key v) h).get? k = h.get? k := by
  intro vv
  induction vv with
  | nil => intro h; rfl
  | cons v t ih =>
    intro h
    rw [List.foldl_cons, ih, Header.get?_Add]
    simp [hk]

/-- What `copyHeader` does to the value sequence of any key of the destination:
it appends, in the order of the visit, the values of every source entry
whose key has this key as its canonical form. -/
lemma addAll_values (k : String) : ∀ (src dst : Header),
    (dst.addAll src).values k = dst.values k ++
      (src.filter (fun e => CanonicalMIMEHeaderKey e.1 == k)).flatMap Prod.snd := by
  intro src
  induction src with
  | nil => intro dst; simp [Header.addAll]
  | cons a t ih =>
    intro dst
    unfold Header.addAll at ih ⊢
    rw [List.foldl_cons, ih, foldl_Add_values]
    by_cases hk : k = CanonicalMIMEHeaderKey a.1
    · simp [List.filter_cons, hk]
    · have : ¬ CanonicalMIMEHeaderKey a.1 = k := fun h2 => hk h2.symm
      simp [List.filter_cons, hk, this]

lemma addAll_get? (k : String) : ∀ (src dst : Header),
    k ∉ src.keys.map CanonicalMIMEHeaderKey → (dst.addAll src).get? k = dst.get? k := by
  intro src
  induction src with
  | nil => intro dst _; rfl
  | cons a t ih =>
    intro dst hk
    unfold Header.addAll at ih ⊢
    unfold Header.keys at ih hk
    simp only [List.map_cons, List.mem_cons, not_or] at hk
    rw [List.foldl_cons, ih _ hk.2, foldl_Add_get? a.1 k hk.1]

lemma addAll_values_extends (k : String) (src dst : Header) :
    dst.values k <+: (dst.addAll src).values k := by
  rw [addAll_values]
  exact List.prefix_append _ _

lemma Add_keys_mono (h : Header) (key v k : String) (hk : k ∈ h.keys) :
    k ∈ (h.Add key v).keys := by
  rw [Header.mem_keys_iff] at hk ⊢
  rw [Header.get?_Add]
  by_cases hc : k = CanonicalMIMEHeaderKey key
  · simp [hc]
  · simpa [hc] using hk

lemma foldl_Add_keys_mono (key k : String) : ∀ (vv : List String) (h : Header),
    k ∈ h.keys → k ∈ (vv.foldl (fun h1 v => h1.Add key v) h).keys := by
  intro vv
  induction vv with
  | nil => intro h hk; exact hk
  | cons v t ih =>
    intro h hk
    rw [List.foldl_cons]
    exact ih _ (Add_keys_mono h key v k hk)

lemma addAll_keys_mono (k : String) : ∀ (src dst : Header),
    k ∈ dst.keys → k ∈ (dst.addAll src).keys := by
  intro src
  induction src with
  | nil => intro dst hk; exact hk
  | cons a t ih =>
    intro dst hk
    unfold Header.addAll at ih ⊢
    rw [List.foldl_cons]
    exact ih _ (foldl_Add_keys_mono a.1 k a.2 dst hk)

/-- On a source whose keys are distinct and in canonical form, the values that
`copyHeader` appends at a key are the source's values at that key. -/
lemma filter_canonical_values (k : String) : ∀ (src : Header), src.WF →
    (∀ k1 ∈ src.keys, CanonicalMIMEHeaderKey k1 = k1) →
    (src.filter (fun e => CanonicalMIMEHeaderKey e.1 == k)).flatMap Prod.snd
      = src.values k := by
  intro src
  induction src with
  | nil => intro _ _; rfl
  | cons a t ih =>
    intro hwf hcanon
    unfold Header.WF Header.keys at hwf ih
    unfold Header.keys at hcanon
    simp only [List.map_cons, List.nodup_cons] at hwf
    have ha : CanonicalMIMEHeaderKey a.1 = a.1 := hcanon a.1 (by simp)
    have ht := ih hwf.2 (fun k1 h1 => hcanon k1 (by simp [h1]))
    unfold Header.values at ht ⊢
    rw [Header.get?_cons, List.filter_cons, ha]
    by_cases hk : a.1 = k
    · have hnot : k ∉ Header.keys t := by rw [← hk]; exact hwf.1
      have hnil := Header.values_eq_nil_of_not_mem t k hnot
      unfold Header.values at hnil
      simp only [hk, beq_self_eq_true, if_true, List.flatMap_cons, Option.getD_some]
      rw [ht, hnil, List.append_nil]
    · simp only [hk, if_false]
      have : (a.1 == k) = false := by simpa using hk
      rw [this]
      simpa using ht

lemma copyHeader_eq (dst src : Ref) (σ : Store) :
    copyHeader dst src σ = Function.update σ dst ((σ dst).addAll (σ src)) := by
  unfold copyHeader Header.addAll Store.Add
  have hinner : (fun (σ1 : Store) (e : String × List String) =>
      e.2.foldl (fun σ2 v => Function.update σ2 dst ((σ2 dst).Add e.1 v)) σ1)
      = fun σ1 e => Function.update σ1 dst
          ((fun h e => e.2.foldl (fun h1 v => h1.Add e.1 v) h) (σ1 dst) e) := by
    funext σ1 e
    exact foldl_update (fun h v => h.Add e.1 v) dst e.2 σ1
  rw [hinner]
  exact foldl_update (fun h e => e.2.foldl (fun h1 v => h1.Add e.1 v) h) dst (σ src) σ

lemma copyHeader_apply (dst src : Ref) (σ : Store) :
    copyHeader dst src σ dst = (σ dst).addAll (σ src) := by
  rw [copyHeader_eq]; simp

lemma copyHeader_apply_ne (dst src r : Ref) (σ : Store) (h : r ≠ dst) :
    copyHeader dst src σ r = σ r := by
  rw [copyHeader_eq]; simp [h]

lemma map_canonical_keys (h : Header) (hcanon : ∀ k ∈ h.keys, CanonicalMIMEHeaderKey k = k) :
    h.keys.map CanonicalMIMEHeaderKey = h.keys := by
  conv_rhs => rw [← List.map_id h.keys]
  exact List.map_congr_left (fun k hk => by simpa using hcanon k hk)

lemma copyHeader_canonical (dst src : Ref) (σ : Store) (hne : dst ≠ src) (hwf : (σ src).WF)
    (hcanon : ∀ k ∈ (σ src).keys, CanonicalMIMEHeaderKey k = k) :
    (∀ k ∈ (σ src).keys,
      (copyHeader dst src σ dst).values k = (σ dst).values k ++ (σ src).values k) ∧
    (∀ k, k ∉ (σ src).keys → (copyHeader dst src σ dst).get? k = (σ dst).get? k) ∧
    (∀ k, (σ dst).values k <+: (copyHeader dst src σ dst).values k) ∧
    (∀ k ∈ (σ dst).keys, k ∈ (copyHeader dst src σ dst).keys) ∧
    (∀ r, r ≠ dst → copyHeader dst src σ r = σ r) ∧
    copyHeader dst src σ src = σ src := by
  refine ⟨?_, ?_, ?_, ?_, ?_, ?_⟩
  · intro k _
    rw [copyHeader_apply, addAll_values, filter_canonical_values k (σ src) hwf hcanon]
  · intro k hk
    rw [copyHeader_apply]
    apply addAll_get?
    rw [map_canonical_keys _ hcanon]
    exact hk
  · intro k
    rw [copyHeader_apply]
    exact addAll_values_extends k _ _
  · intro k hk
    rw [copyHeader_apply]
    exact addAll_keys_mono k _ _ hk
  · intro r hr
    exact copyHeader_apply_ne dst src r σ hr
  · exact copyHeader_apply_ne dst src src σ (fun h => hne h.symm)

/-- C6, as the code has it: for distinct maps `dst` and `src`, the keys of `src`
being in canonical form, after `copyHeader(dst, src)` the value sequence of
`dst` at every key of `src` is what it was before followed by the values of
`src` at that key in their order; at every other key `dst` is unchanged;
nothing that was in `dst` is removed, overwritten or merged away; and `src`,
like every map other than `dst`, is unchanged. -/
theorem copyHeader_appends_values (dst src : Ref) (σ : Store) (hne : dst ≠ src)
    (hwf : (σ src).WF) (hcanon : ∀ k ∈ (σ src).keys, CanonicalMIMEHeaderKey k = k) :
    (∀ k ∈ (σ src).keys,
      (copyHeader dst src σ dst).values k = (σ dst).values k ++ (σ src).values k) ∧
    (∀ k, k ∉ (σ src).keys → (copyHeader dst src σ dst).get? k = (σ dst).get? k) ∧
    (∀ k, (σ dst).values k <+: (copyHeader dst src σ dst).values k) ∧
    (∀ k ∈ (σ dst).keys, k ∈ (copyHeader dst src σ dst).keys) ∧
    (∀ r, r ≠ dst → copyHeader dst src σ r = σ r) ∧
    copyHeader dst src σ src = σ src :=
  copyHeader_canonical dst src σ hne hwf hcanon

/-- C6 witness: `dst` already holds a value that `src` holds too. -/
theorem copyHeader_appends_values_witness :
    (∀ k ∈ (exampleStore [("X-Foo", ["1"])] [("X-Foo", ["1", "2"]), ("Accept", ["a"])] 1).keys,
      (copyHeader 0 1 (exampleStore [("X-Foo", ["1"])]
          [("X-Foo", ["1", "2"]), ("Accept", ["a"])]) 0).values k =
        (exampleStore [("X-Foo", ["1"])] [("X-Foo", ["1", "2"]), ("Accept", ["a"])] 0).values k
          ++ (exampleStore [("X-Foo", ["1"])]
            [("X-Foo", ["1", "2"]), ("Accept", ["a"])] 1).values k) ∧
    (copyHeader 0 1 (exampleStore [("X-Foo", ["1"])]
      [("X-Foo", ["1", "2"]), ("Accept", ["a"])]) 0).values "X-Foo" = ["1", "1", "2"] :=
  ⟨(copyHeader_appends_values 0 1
      (exampleStore [("X-Foo", ["1"])] [("X-Foo", ["1", "2"]), ("Accept", ["a"])])
      (by decide) (by decide) (by decide)).1, by decide⟩

/-- C6 counterexample: `src` holds the keys `x-foo` and `X-Foo`, `dst` is
empty. `Add` files both under `X-Foo`, so that `dst` at the key `X-Foo` of `src` is
not the former `dst` values followed by the values of `src` at `X-Foo`, in
whichever order the two entries are visited; and `dst` has nothing at the key
`x-foo` of `src`. -/
theorem copyHeader_merges_keys_of_same_canonical_form :
    (0 : Ref) ≠ 1 ∧
    Header.WF [("x-foo", ["1"]), ("X-Foo", ["2"])] ∧
    "X-Foo" ∈ (exampleStore [] [("x-foo", ["1"]), ("X-Foo", ["2"])] 1).keys ∧
    (copyHeader 0 1 (exampleStore [] [("x-foo", ["1"]), ("X-Foo", ["2"])]) 0).values "X-Foo"
      = ["1", "2"] ∧
    (copyHeader 0 1 (exampleStore [] [("X-Foo", ["2"]), ("x-foo", ["1"])]) 0).values "X-Foo"
      = ["2", "1"] ∧
    (exampleStore [] [("x-foo", ["1"]), ("X-Foo", ["2"])] 0).values "X-Foo" ++
      (exampleStore [] [("x-foo", ["1"]), ("X-Foo", ["2"])] 1).values "X-Foo" = ["2"] ∧
    (copyHeader 0 1 (exampleStore [] [("x-foo", ["1"]), ("X-Foo", ["2"])]) 0).values "x-foo"
      = [] := by
  decide

lemma copyHeader_empty_keys (dst src : Ref) (σ : Store) (hempty : σ dst = [])
    (hcanon : ∀ k ∈ (σ src).keys, CanonicalMIMEHeaderKey k = k) :
    ∀ k ∈ (copyHeader dst src σ dst).keys, k ∈ (σ src).keys := by
  intro k hk
  by_contra hnot
  rw [Header.mem_keys_iff, copyHeader_apply,
    addAll_get? k _ _ (by rw [map_canonical_keys _ hcanon]; exact hnot), hempty] at hk
  exact hk rfl

/-- C7, as the code has it: with `dst` empty and distinct from `src`, the keys of
`src` being in canonical form, after `copyHeader(dst, src)` and
`delHopHeaders(dst)` the map `dst` has, at every name that is not hop-by-hop,
the values of `src` in the same order, holds none of the nine hop-by-hop
names in any letter case, holds no key that `src` does not hold, and `src` is
unchanged. -/
theorem copyHeader_then_delHopHeaders (dst src : Ref) (σ : Store) (hne : dst ≠ src)
    (hempty : σ dst = []) (hwf : (σ src).WF)
    (hcanon : ∀ k ∈ (σ src).keys, CanonicalMIMEHeaderKey k = k) :
    (∀ k, isHopName k = false →
      (delHopHeaders dst (copyHeader dst src σ) dst).values k = (σ src).values k) ∧
    (∀ k, isHopName k = true → k ∉ (delHopHeaders dst (copyHeader dst src σ) dst).keys) ∧
    (∀ k ∈ (delHopHeaders dst (copyHeader dst src σ) dst).keys, k ∈ (σ src).keys) ∧
    delHopHeaders dst (copyHeader dst src σ) src = σ src := by
  have hkeys := copyHeader_empty_keys dst src σ hempty hcanon
  have hcanon1 : ∀ k ∈ (copyHeader dst src σ dst).keys, CanonicalMIMEHeaderKey k = k :=
    fun k hk => hcanon k (hkeys k hk)
  have hdel := delHopHeaders_canonical_keys dst (copyHeader dst src σ) hcanon1
  have hcopy := copyHeader_canonical dst src σ hne hwf hcanon
  refine ⟨?_, hdel.1, ?_, ?_⟩
  · intro k hk
    have h1 : (delHopHeaders dst (copyHeader dst src σ) dst).values k
        = (copyHeader dst src σ dst).values k := by
      unfold Header.values
      rw [hdel.2.1 k hk]
    rw [h1]
    by_cases hmem : k ∈ (σ src).keys
    · rw [hcopy.1 k hmem, hempty]
      rfl
    · have h2 : (copyHeader dst src σ dst).values k = (σ dst).values k := by
        unfold Header.values
        rw [hcopy.2.1 k hmem]
      rw [h2, hempty, Header.values_eq_nil_of_not_mem _ k hmem]
      rfl
  · intro k hk
    apply hkeys
    rw [delHopHeaders_apply, Header.mem_keys_iff,
      Header.get?_filter_keys (fun k => !hopHeaders.contains k)] at hk
    rw [Header.mem_keys_iff]
    intro hnone
    rw [hnone] at hk
    simp at hk
  · rw [delHopHeaders_apply_ne dst src _ (fun h => hne h.symm)]
    exact hcopy.2.2.2.2.2

/-- C7 witness: a request header with a hop-by-hop entry and a two-valued entry. -/
theorem copyHeader_then_delHopHeaders_witness :
    (∀ k, isHopName k = false →
      (delHopHeaders 0 (copyHeader 0 1
        (exampleStore [] [("Connection", ["close"]), ("X-Foo", ["1", "2"])])) 0).values k
        = (exampleStore [] [("Connection", ["close"]), ("X-Foo", ["1", "2"])] 1).values k) ∧
    (delHopHeaders 0 (copyHeader 0 1
      (exampleStore [] [("Connection", ["close"]), ("X-Foo", ["1", "2"])])) 0)
        = [("X-Foo", ["1", "2"])] :=
  ⟨(copyHeader_then_delHopHeaders 0 1
      (exampleStore [] [("Connection", ["close"]), ("X-Foo", ["1", "2"])])
      (by decide) (by decide) (by decide) (by decide)).1, by decide⟩

/-- C7 counterexample: `src` holds the keys `x-foo` and `X-Foo`, neither of them
hop-by-hop, and `dst` is empty. After `copyHeader` and `delHopHeaders`, `dst`
has at `X-Foo` the values of both entries, not the values of `src` at
`X-Foo`, in whichever order the two entries are visited, and has nothing at
`x-foo`. -/
theorem merged_keys_after_copy_and_strip :
    Header.WF [("x-foo", ["1"]), ("X-Foo", ["2"])] ∧
    isHopName "X-Foo" = false ∧ isHopName "x-foo" = false ∧
    (exampleStore [] [("x-foo", ["1"]), ("X-Foo", ["2"])] 1).values "X-Foo" = ["2"] ∧
    (delHopHeaders 0 (copyHeader 0 1
      (exampleStore [] [("x-foo", ["1"]), ("X-Foo", ["2"])])) 0).values "X-Foo" = ["1", "2"] ∧
    (delHopHeaders 0 (copyHeader 0 1
      (exampleStore [] [("X-Foo", ["2"]), ("x-foo", ["1"])])) 0).values "X-Foo" = ["2", "1"] ∧
    (exampleStore [] [("x-foo", ["1"]), ("X-Foo", ["2"])] 1).values "x-foo" = ["1"] ∧
    (delHopHeaders 0 (copyHeader 0 1
      (exampleStore [] [("x-foo", ["1"]), ("X-Foo", ["2"])])) 0).values "x-foo" = [] := by
  decide

/-! ### `hijack` and `makeServerTLSConfig` -/

/-- C9: `hijack` on an argument that is no `http.Hijacker` fails with the
not-hijackable error and leaves the connection as it was; when `Hijack()`
succeeds and `SetDeadline` with the zero time fails, the connection has been
closed, right after the `SetDeadline` call, and that error is returned; on
every failure the connection and the reader/writer returned are `nil`; on
success the results are the connection and the reader/writer of the takeover,
the connection having received the one call `SetDeadline` with the zero
time and no `Close`, so that its deadline is cleared and it is left open. -/
theorem hijack_contract :
    (∀ c sd, hijack ⟨c, none, sd⟩
      = ⟨none, none, some "Connection doesn't support hijacking", c⟩) ∧
    (∀ c rw e, hijack ⟨c, some (Except.ok rw), some e⟩
      = ⟨none, none, some e, (c.SetDeadline 0 (some e)).Close⟩ ∧
        (hijack ⟨c, some (Except.ok rw), some e⟩).world.closed = true ∧
        (hijack ⟨c, some (Except.ok rw), some e⟩).world.log
          = c.log ++ [ConnCall.SetDeadline 0 (some e), ConnCall.Close]) ∧
    (∀ x, (hijack x).err ≠ none → (hijack x).conn = none ∧ (hijack x).rw = none) ∧
    (∀ c rw, hijack ⟨c, some (Except.ok rw), none⟩
      = ⟨some (c.SetDeadline 0 none), some rw, none, c.SetDeadline 0 none⟩ ∧
        (c.SetDeadline 0 none).closed = c.closed ∧
        (c.SetDeadline 0 none).deadline = 0 ∧
        (c.SetDeadline 0 none).log = c.log ++ [ConnCall.SetDeadline 0 none]) ∧
    (∀ x, (hijack x).err = none →
      ∃ rw, x.hijacker = some (Except.ok rw) ∧ x.setDeadlineErr = none) := by
  refine ⟨?_, ?_, ?_, ?_, ?_⟩
  · intro c sd; rfl
  · intro c rw e
    simp [hijack, Conn.Close, Conn.SetDeadline]
  · intro x hx
    unfold hijack at hx ⊢
    rcases hh : x.hijacker with _ | (e | rw)
    · simp
    · simp
    · rw [hh] at hx
      by_cases hsd : x.setDeadlineErr = none
      · simp [hsd] at hx
      · simp [hsd]
  · intro c rw
    simp [hijack, Conn.SetDeadline]
  · intro x hx
    unfold hijack at hx
    rcases hh : x.hijacker with _ | (e | rw)
    · rw [hh] at hx; simp at hx
    · rw [hh] at hx; simp at hx
    · rw [hh] at hx
      by_cases hsd : x.setDeadlineErr = none
      · exact ⟨rw, rfl, hsd⟩
      · simp [hsd] at hx

/-- C9 witness: the takeover succeeds and clearing the deadline fails. -/
theorem hijack_contract_witness :
    (hijack ⟨⟨false, 30, []⟩, some (Except.ok ⟨[1]⟩), some "closed"⟩).err ≠ none ∧
    (hijack ⟨⟨false, 30, []⟩, some (Except.ok ⟨[1]⟩), some "closed"⟩).conn = none ∧
    (hijack ⟨⟨false, 30, []⟩, some (Except.ok ⟨[1]⟩), some "closed"⟩).rw = none :=
  ⟨by decide, hijack_contract.2.2.1 ⟨⟨false, 30, []⟩, some (Except.ok ⟨[1]⟩), some "closed"⟩
    (by decide)⟩

/-- C10: `makeServerTLSConfig` as a function of the outcomes of its library
calls. It returns an error and a `nil` config when the key pair fails to load,
and, for a non-empty `cafile`, when the file cannot be read or no certificate
is parsed from it. Otherwise it returns no error and a config holding
exactly the loaded certificate: without trust store and with client
authentication off when `cafile` is empty, with the parsed trust store and the
policy `VerifyClientCertIfGiven` when it is not. In every case exactly one of
config and error is `nil`. -/
theorem makeServerTLSConfig_contract (env : TLSEnv) (certfile keyfile cafile : String) :
    (∀ e, env.LoadX509KeyPair certfile keyfile = Except.error e →
      makeServerTLSConfig env certfile keyfile cafile = (none, some e)) ∧
    (∀ cert, env.LoadX509KeyPair certfile keyfile = Except.ok cert → cafile = "" →
      makeServerTLSConfig env certfile keyfile cafile
        = (some ⟨[cert], none, ClientAuthType.NoClientCert⟩, none)) ∧
    (∀ cert e, env.LoadX509KeyPair certfile keyfile = Except.ok cert → cafile ≠ "" →
      env.ReadFile cafile = Except.error e →
      makeServerTLSConfig env certfile keyfile cafile = (none, some e)) ∧
    (∀ cert certs, env.LoadX509KeyPair certfile keyfile = Except.ok cert → cafile ≠ "" →
      env.ReadFile cafile = Except.ok certs → env.parsePEM certs = [] →
      makeServerTLSConfig env certfile keyfile cafile
        = (none, some "Failed to load CA certificates")) ∧
    (∀ cert certs, env.LoadX509KeyPair certfile keyfile = Except.ok cert → cafile ≠ "" →
      env.ReadFile cafile = Except.ok certs → env.parsePEM certs ≠ [] →
      makeServerTLSConfig env certfile keyfile cafile
        = (some ⟨[cert], some (env.parsePEM certs), ClientAuthType.VerifyClientCertIfGiven⟩,
            none)) ∧
    ((makeServerTLSConfig env certfile keyfile cafile).1 = none ↔
      (makeServerTLSConfig env certfile keyfile cafile).2 ≠ none) := by
  refine ⟨?_, ?_, ?_, ?_, ?_, ?_⟩
  · intro e he
    simp [makeServerTLSConfig, he]
  · intro cert hc hca
    simp [makeServerTLSConfig, hc, hca, Config.zero]
  · intro cert e hc hca hr
    simp [makeServerTLSConfig, hc, hca, hr]
  · intro cert certs hc hca hr hp
    simp [makeServerTLSConfig, hc, hca, hr, AppendCertsFromPEM, hp]
  · intro cert certs hc hca hr hp
    simp [makeServerTLSConfig, hc, hca, hr, AppendCertsFromPEM, hp, Config.zero, NewCertPool]
  · unfold makeServerTLSConfig
    rcases hc : env.LoadX509KeyPair certfile keyfile with e | cert
    · simp
    · by_cases hca : cafile = ""
      · simp [hca]
      · rcases hr : env.ReadFile cafile with e | certs
        · simp [hca]
        · by_cases hp : env.parsePEM certs = []
          · simp [hca, AppendCertsFromPEM, hp]
          · simp [hca, AppendCertsFromPEM, hp]

/-- C10 witness: an empty `cafile`, a CA file without certificate, and a CA
file with one. -/
theorem makeServerTLSConfig_contract_witness :
    makeServerTLSConfig exampleEnv "c" "k" ""
      = (some ⟨["server"], none, ClientAuthType.NoClientCert⟩, none) ∧
    makeServerTLSConfig exampleEnv "c" "k" "empty.pem"
      = (none, some "Failed to load CA certificates") ∧
    makeServerTLSConfig exampleEnv "c" "k" "ca.pem"
      = (some ⟨["server"], some (exampleEnv.parsePEM [1]),
          ClientAuthType.VerifyClientCertIfGiven⟩, none) :=
  ⟨(makeServerTLSConfig_contract exampleEnv "c" "k" "").2.1 "server" rfl rfl,
   (makeServerTLSConfig_contract exampleEnv "c" "k" "empty.pem").2.2.2.1 "server" [] rfl
     (by decide) rfl rfl,
   (makeServerTLSConfig_contract exampleEnv "c" "k" "ca.pem").2.2.2.2.1 "server" [1] rfl
     (by decide) rfl (by decide)⟩

/-! ### The relay -/

lemma proxyInv_init (ctxDone : Bool) : ProxyInv (ProxyState.init ctxDone) := by
  simp [ProxyInv, ProxyState.init]

lemma proxyInv_main (s s1 : ProxyState) (hinv : ProxyInv s)
    (hstep : step Action.main s = some s1) : ProxyInv s1 := by
  obtain ⟨m, cl, cr, w, wg, gd, ctx, lc, rc⟩ := s
  simp only [ProxyInv] at hinv
  obtain ⟨h1, h2, h3, h4, h5, h6, h7, h8, h9, h10, h11, h12, h13⟩ := hinv
  cases m <;> simp only [step] at hstep
  case recvGroupdone =>
    split at hstep
    · simp only [Option.some.injEq] at hstep
      subst hstep
      simp only [ProxyInv]
      refine ⟨?_, ?_, ?_, ?_, ?_, ?_, ?_, ?_, ?_, ?_, ?_, ?_, ?_⟩ <;>
        first
        | assumption
        | (simp_all [pending]; done)
        | (simp_all [pending]; omega)
        | (intro hw; simp only [hw, true_implies, reduceCtorEq, false_implies] at *; omega)
    · exact absurd hstep (by simp)
  case select => exact absurd hstep (by simp)
  case returned => exact absurd hstep (by simp)
  all_goals
    simp only [Option.some.injEq] at hstep
    subst hstep
    simp only [ProxyInv]
    refine ⟨?_, ?_, ?_, ?_, ?_, ?_, ?_, ?_, ?_, ?_, ?_, ?_, ?_⟩ <;>
      first
      | assumption
      | simp_all [pending]

lemma proxyInv_selectCtxDone (s s1 : ProxyState) (hinv : ProxyInv s)
    (hstep : step Action.selectCtxDone s = some s1) : ProxyInv s1 := by
  obtain ⟨m, cl, cr, w, wg, gd, ctx, lc, rc⟩ := s
  simp only [ProxyInv] at hinv
  obtain ⟨h1, h2, h3, h4, h5, h6, h7, h8, h9, h10, h11, h12, h13⟩ := hinv
  simp only [step] at hstep
  split at hstep
  · rename_i hcond
    obtain ⟨rfl, hc⟩ := hcond
    simp only [Option.some.injEq] at hstep
    subst hstep
    simp only [ProxyInv]
    refine ⟨?_, ?_, ?_, ?_, ?_, ?_, ?_, ?_, ?_, ?_, ?_, ?_, ?_⟩ <;>
      first
      | assumption
      | simp_all [pending]
  · exact absurd hstep (by simp)

lemma proxyInv_selectGroupdone (s s1 : ProxyState) (hinv : ProxyInv s)
    (hstep : step Action.selectGroupdone s = some s1) : ProxyInv s1 := by
  obtain ⟨m, cl, cr, w, wg, gd, ctx, lc, rc⟩ := s
  simp only [ProxyInv] at hinv
  obtain ⟨h1, h2, h3, h4, h5, h6, h7, h8, h9, h10, h11, h12, h13⟩ := hinv
  simp only [step] at hstep
  split at hstep
  · rename_i hcond
    obtain ⟨rfl, hc⟩ := hcond
    simp only [Option.some.injEq] at hstep
    subst hstep
    simp only [ProxyInv]
    refine ⟨?_, ?_, ?_, ?_, ?_, ?_, ?_, ?_, ?_, ?_, ?_, ?_, ?_⟩ <;>
      first
      | assumption
      | (simp_all [pending]; done)
      | (simp_all [pending]; omega)
      | (intro hw; simp only [hw, true_implies, reduceCtorEq, false_implies] at *; omega)
  · exact absurd hstep (by simp)

lemma proxyInv_cpyLeft (s s1 : ProxyState) (hinv : ProxyInv s)
    (hstep : step Action.cpyLeft s = some s1) : ProxyInv s1 := by
  obtain ⟨m, cl, cr, w, wg, gd, ctx, lc, rc⟩ := s
  simp only [ProxyInv] at hinv
  obtain ⟨h1, h2, h3, h4, h5, h6, h7, h8, h9, h10, h11, h12, h13⟩ := hinv
  cases cl <;> simp only [step, stepCpy] at hstep
  case notStarted => exact absurd hstep (by simp)
  case exited => exact absurd hstep (by simp)
  all_goals
    simp only [Option.some.injEq] at hstep
    subst hstep
    simp only [ProxyInv]
    refine ⟨?_, ?_, ?_, ?_, ?_, ?_, ?_, ?_, ?_, ?_, ?_, ?_, ?_⟩ <;>
      first
      | assumption
      | simp_all [pending]

lemma proxyInv_cpyRight (s s1 : ProxyState) (hinv : ProxyInv s)
    (hstep : step Action.cpyRight s = some s1) : ProxyInv s1 := by
  obtain ⟨m, cl, cr, w, wg, gd, ctx, lc, rc⟩ := s
  simp only [ProxyInv] at hinv
  obtain ⟨h1, h2, h3, h4, h5, h6, h7, h8, h9, h10, h11, h12, h13⟩ := hinv
  cases cr <;> simp only [step, stepCpy] at hstep
  case notStarted => exact absurd hstep (by simp)
  case exited => exact absurd hstep (by simp)
  all_goals
    simp only [Option.some.injEq] at hstep
    subst hstep
    simp only [ProxyInv]
    refine ⟨?_, ?_, ?_, ?_, ?_, ?_, ?_, ?_, ?_, ?_, ?_, ?_, ?_⟩ <;>
      first
      | assumption
      | simp_all [pending]

set_option maxHeartbeats 1000000 in
lemma proxyInv_waiter (s s1 : ProxyState) (hinv : ProxyInv s)
    (hstep : step Action.waiter s = some s1) : ProxyInv s1 := by
  obtain ⟨m, cl, cr, w, wg, gd, ctx, lc, rc⟩ := s
  simp only [ProxyInv] at hinv
  obtain ⟨h1, h2, h3, h4, h5, h6, h7, h8, h9, h10, h11, h12, h13⟩ := hinv
  cases w <;> simp only [step] at hstep
  case notStarted => exact absurd hstep (by simp)
  case exited => exact absurd hstep (by simp)
  all_goals
    split at hstep
    · rename_i hcond
      simp only [Option.some.injEq] at hstep
      subst hstep
      simp only [ProxyInv]
      refine ⟨?_, ?_, ?_, ?_, ?_, ?_, ?_, ?_, ?_, ?_, ?_, ?_, ?_⟩ <;>
        first
        | assumption
        | (intro hw; simp only [hw, true_implies, reduceCtorEq, false_implies] at *; omega)
        | (cases cl <;> cases cr <;> simp_all [pending])
    · exact absurd hstep (by simp)

lemma proxyInv_cancel (s s1 : ProxyState) (hinv : ProxyInv s)
    (hstep : step Action.cancel s = some s1) : ProxyInv s1 := by
  simp only [step, Option.some.injEq] at hstep
  subst hstep
  exact hinv

lemma proxyInv_step (a : Action) (s s1 : ProxyState) (hinv : ProxyInv s)
    (hstep : step a s = some s1) : ProxyInv s1 := by
  cases a
  · exact proxyInv_main s s1 hinv hstep
  · exact proxyInv_selectCtxDone s s1 hinv hstep
  · exact proxyInv_selectGroupdone s s1 hinv hstep
  · exact proxyInv_cpyLeft s s1 hinv hstep
  · exact proxyInv_cpyRight s s1 hinv hstep
  · exact proxyInv_waiter s s1 hinv hstep
  · exact proxyInv_cancel s s1 hinv hstep

lemma proxyInv_run : ∀ (as : List Action) (s s1 : ProxyState),
    ProxyInv s → run as s = some s1 → ProxyInv s1 := by
  intro as
  induction as with
  | nil =>
    intro s s1 hinv hrun
    simp only [run, Option.some.injEq] at hrun
    rw [← hrun]; exact hinv
  | cons a t ih =>
    intro s s1 hinv hrun
    simp only [run] at hrun
    cases hs : step a s with
    | none => rw [hs] at hrun; exact absurd hrun (by simp)
    | some s2 =>
      rw [hs] at hrun
      exact ih s2 s1 (proxyInv_step a s s2 hinv hs) hrun

lemma proxyInv_returned (s : ProxyState) (hinv : ProxyInv s) (hret : s.main = MainPC.returned) :
    (s.leftClosed = true ∧ s.rightClosed = true) ∧
      (s.cpyLeft = CpyPC.exited ∧ s.cpyRight = CpyPC.exited ∧ s.waiter = WaitPC.exited ∧
        s.wg = 0 ∧ s.groupdone = 0) := by
  obtain ⟨m, cl, cr, w, wg, gd, ctx, lc, rc⟩ := s
  simp only [ProxyInv] at hinv
  obtain ⟨h1, h2, h3, h4, h5, h6, h7, h8, h9, h10, h11, h12, h13⟩ := hinv
  simp only at hret
  subst hret
  have hw : w = WaitPC.exited := by
    cases w
    · exact absurd (h7.1 rfl) (by simp)
    · exact absurd rfl (h9 rfl).2
    · exact absurd rfl (h10 rfl).2.1
    · rfl
  have h11a := h11 hw
  have hwg : wg = 0 := h11a.1
  have hgd : gd = 0 := by
    rcases h11a.2 with h | h
    · exact h.2
    · exact absurd rfl h.1
  have hsum := h4 (by simp)
  rw [hwg] at hsum
  have hcl : cl = CpyPC.exited := by
    by_contra hne
    simp only [pending, hne, if_false] at hsum
    omega
  have hcr : cr = CpyPC.exited := by
    by_contra hne
    simp only [pending, hne, if_false] at hsum
    omega
  exact ⟨⟨h1 (Or.inr hcl), h2 (Or.inr hcr)⟩, hcl, hcr, hw, hwg, hgd⟩

/-- C3: in every execution of `proxy`, whatever the interleaving of its
goroutines and whenever the context is cancelled, once `proxy` has returned
both `left` and `right` have been closed. -/
theorem proxy_closes_both_before_return (ctxDone : Bool) (as : List Action) (s : ProxyState)
    (hrun : run as (ProxyState.init ctxDone) = some s) (hret : s.main = MainPC.returned) :
    s.leftClosed = true ∧ s.rightClosed = true :=
  (proxyInv_returned s (proxyInv_run as _ s (proxyInv_init ctxDone) hrun) hret).1

/-- C3 witness: the context is cancelled while both copies are running; `proxy`
closes both connections, the copies end, and `proxy` returns. -/
theorem proxy_closes_both_before_return_witness :
    run cancelledRun (ProxyState.init false) = some cancelledEnd ∧
      cancelledEnd.main = MainPC.returned ∧
      cancelledEnd.leftClosed = true ∧ cancelledEnd.rightClosed = true :=
  ⟨by decide, by decide,
    proxy_closes_both_before_return false cancelledRun cancelledEnd (by decide) (by decide)⟩

/-- C4: in every execution of `proxy`, once `proxy` has returned both copy
goroutines have ended, having called `wg.Done()`, so that the counter of `wg` is
zero, and the waiting goroutine has sent its notification on `groupdone`,
which `proxy` has received. -/
theorem proxy_returns_after_copies_end (ctxDone : Bool) (as : List Action) (s : ProxyState)
    (hrun : run as (ProxyState.init ctxDone) = some s) (hret : s.main = MainPC.returned) :
    s.cpyLeft = CpyPC.exited ∧ s.cpyRight = CpyPC.exited ∧ s.waiter = WaitPC.exited ∧
      s.wg = 0 ∧ s.groupdone = 0 :=
  (proxyInv_returned s (proxyInv_run as _ s (proxyInv_init ctxDone) hrun) hret).2

/-- C4 witness: both copies end by themselves, their steps interleaved, and the
`select` takes the case `<-groupdone`. -/
theorem proxy_returns_after_copies_end_witness :
    run completedRun (ProxyState.init false) = some completedEnd ∧
      completedEnd.main = MainPC.returned ∧
      completedEnd.cpyLeft = CpyPC.exited ∧ completedEnd.cpyRight = CpyPC.exited ∧
      completedEnd.waiter = WaitPC.exited ∧ completedEnd.wg = 0 ∧ completedEnd.groupdone = 0 :=
  ⟨by decide, by decide,
    proxy_returns_after_copies_end false completedRun completedEnd (by decide) (by decide)⟩

end DumbProxy
